import Mathlib

/-!
Verification of the crypto-screener dashboard core (normalization /
enrichment, sorting, partitioning, CSV export), shallowly embedded from
`src/src/App.js` and the unnamed variant `src/unnamed/part_000`.

Conventions of the embedding:
* JS numbers on market records are modelled as `Int` (the claims under
  study concern absence handling, ordering and rendering, not float
  rounding); a JS field that may be `null`/`undefined` is an `Option`.
* JS strings are Lean `String`s; character-level operations (CSV quoting,
  parsing) work on `List Char` via `String.data`.
* `Array.prototype.sort` with a consistent comparator is required by the
  ECMAScript spec to be stable; for a consistent comparator the stable
  sorted permutation is unique, so it is embedded as a stable insertion
  sort parameterized by the source's comparator.
-/

namespace CryptoScreener

/-- A market record as held in the `cryptos` state: the fields of a
CoinGecko market entry that the screener reads, plus the optional
`category` added by the per-record enrichment in `fetchCryptoData`
(`src/src/App.js`). `none` models a JS `null`/`undefined`/absent field. -/
structure Crypto where
  id : String
  name : String
  symbol : String
  market_cap_rank : Option Int
  current_price : Option Int
  market_cap : Option Int
  total_volume : Option Int
  price_change_percentage_24h_in_currency : Option Int
  price_change_percentage_7d_in_currency : Option Int
  price_change_percentage_30d_in_currency : Option Int
  price_change_percentage_1y_in_currency : Option Int
  category : Option String
deriving DecidableEq, Repr

/-- A record with every optional field absent, used to build concrete
test records. -/
def baseCrypto : Crypto :=
  { id := ""
    name := ""
    symbol := ""
    market_cap_rank := none
    current_price := none
    market_cap := none
    total_volume := none
    price_change_percentage_24h_in_currency := none
    price_change_percentage_7d_in_currency := none
    price_change_percentage_30d_in_currency := none
    price_change_percentage_1y_in_currency := none
    category := none }

/-! ### Enrichment (`fetchCryptoData`, src/src/App.js lines 31-50) -/

/-- Outcome of the per-record detail fetch
`fetch(.../coins/id)`: `fail` covers a non-ok HTTP response and a thrown
exception (both handled identically in the source); `ok cats` is a
successful response whose `categories` field is `cats` (`none` when the
field is missing). -/
inductive DetailFetch where
  | fail
  | ok (categories : Option (List String))
deriving DecidableEq, Repr

/-- One arm of the `marketData.map` in `fetchCryptoData`: on failure the
record is returned with `category: 'N/A'`; on success the first category
is used when `detailData.categories && detailData.categories.length > 0`,
else `'N/A'`. -/
def enrichOne (res : DetailFetch) (c : Crypto) : Crypto :=
  match res with
  | DetailFetch.fail => { c with category := some "N/A" }
  | DetailFetch.ok cats =>
    match cats with
    | some (x :: _) => { c with category := some x }
    | _ => { c with category := some "N/A" }

/-- `Promise.all(marketData.map ...)` of `fetchCryptoData`: every record
is enriched independently through the per-record lookup. -/
def cryptosWithCategories (lookup : String → DetailFetch) (l : List Crypto) : List Crypto :=
  l.map (fun c => enrichOne (lookup c.id) c)

/-! ### Category label (src/src/App.js lines 149-151 and 344-347) -/

/-- JS `crypto.category || 'N/A'`: `null`/`undefined`/`''` are falsy. -/
def catOrNA : Option String → String
  | none => "N/A"
  | some s => if s = "" then "N/A" else s

/-- The category string rendered in the table cell (App.js 345-347). -/
def displayCategory (c : Option String) : String :=
  if c = some "Smart Contract Platform" then "Major > 80% allocation permitted"
  else catOrNA c

/-- The category string used by the CSV exporter (App.js 149-151). -/
def exportedCategory (c : Option String) : String :=
  if c = some "Smart Contract Platform" then "Major > 80% allocation permitted"
  else catOrNA c

/-! ### Partitioner (src/unnamed/part_000 lines 103-104) -/

/-- `crypto.market_cap_rank >= lo && crypto.market_cap_rank <= hi` for an
optional rank: in JS both comparisons are false on `null`/`undefined`. -/
def rankInRange (lo hi : Int) (c : Crypto) : Bool :=
  match c.market_cap_rank with
  | some r => decide (lo ≤ r) && decide (r ≤ hi)
  | none => false

/-- `majors`: records of rank 1-8 (part_000 line 103). -/
def majors (l : List Crypto) : List Crypto :=
  l.filter (rankInRange 1 8)

/-- `altcoins`: records of rank 9-200 (part_000 line 104). -/
def altcoins (l : List Crypto) : List Crypto :=
  l.filter (rankInRange 9 200)

/-! ### Sort-direction state machine (`handleSort`, App.js 92-99) -/

/-- A numeric sortable/readable field of a record. -/
inductive NumKey where
  | rank | price | marketCap | volume | p24h | p7d | p30d | p1y
deriving DecidableEq, Repr

/-- Field access `a[sortColumn]` for the numeric columns. -/
def numFieldOf : NumKey → Crypto → Option Int
  | NumKey.rank => Crypto.market_cap_rank
  | NumKey.price => Crypto.current_price
  | NumKey.marketCap => Crypto.market_cap
  | NumKey.volume => Crypto.total_volume
  | NumKey.p24h => Crypto.price_change_percentage_24h_in_currency
  | NumKey.p7d => Crypto.price_change_percentage_7d_in_currency
  | NumKey.p30d => Crypto.price_change_percentage_30d_in_currency
  | NumKey.p1y => Crypto.price_change_percentage_1y_in_currency

/-- A sortable column name: the `'category'` string column or a numeric
column. -/
inductive SortKey where
  | category
  | num (k : NumKey)
deriving DecidableEq, Repr

/-- The `sortOrder` state string, `'asc'` or `'desc'`. -/
inductive SortDir where
  | asc | desc
deriving DecidableEq, Repr

/-- `sortOrder === 'asc' ? 'desc' : 'asc'`. -/
def flipDir : SortDir → SortDir
  | SortDir.asc => SortDir.desc
  | SortDir.desc => SortDir.asc

/-- The two pieces of sort view-state, `sortColumn` and `sortOrder`. -/
structure SortState where
  column : Option SortKey
  order : SortDir
deriving DecidableEq, Repr

/-- `useState(null)` / `useState('desc')`: the initial sort state. -/
def initialSortState : SortState :=
  { column := none, order := SortDir.desc }

/-- `handleSort` (App.js 92-99): clicking the current column flips the
direction, clicking any other column selects it with descending order. -/
def handleSort (col : SortKey) (s : SortState) : SortState :=
  if s.column = some col then { column := s.column, order := flipDir s.order }
  else { column := some col, order := SortDir.desc }

/-! ### Sorter (`sortedCryptos`, App.js 102-120) -/

/-- `a[sortColumn] || 0` for a numeric column: `null`/`undefined` (and an
actual `0`) coerce to `0`. -/
def keyNum (k : NumKey) (c : Crypto) : Int :=
  (numFieldOf k c).getD 0

/-- `a.category || ''` for the category column. -/
def keyCat (c : Crypto) : String :=
  c.category.getD ""

/-- `categoryA.localeCompare(categoryB)`, modelled as code-point
lexicographic comparison returning a sign. -/
def strCmp (a b : String) : Int :=
  if a < b then -1 else if b < a then 1 else 0

/-- The comparator closure passed to `.sort` in App.js 102-120, as a
function of the `sortColumn`/`sortOrder` state. -/
def cryptoCmp (col : Option SortKey) (ord : SortDir) (a b : Crypto) : Int :=
  match col with
  | none => 0
  | some SortKey.category =>
    if ord = SortDir.asc then strCmp (keyCat a) (keyCat b)
    else strCmp (keyCat b) (keyCat a)
  | some (SortKey.num k) =>
    if ord = SortDir.asc then keyNum k a - keyNum k b
    else keyNum k b - keyNum k a

/-- Stable insertion of `a` into a sorted list under a JS-style comparator:
`a` is placed before the first element `b` with `cmp a b < 0`, i.e. after
every element comparing equal to it. -/
def insertC {α : Type} (cmp : α → α → Int) (a : α) : List α → List α
  | [] => [a]
  | b :: bs => if cmp a b < 0 then a :: b :: bs else b :: insertC cmp a bs

/-- Stable sort under a JS-style comparator (insertion sort). For a
consistent comparator this is the unique stable sorted permutation, which
is what ECMAScript requires of `Array.prototype.sort`. -/
def sortC {α : Type} (cmp : α → α → Int) (l : List α) : List α :=
  l.foldl (fun acc x => insertC cmp x acc) []

/-- `const sortedCryptos = [...cryptos].sort((a, b) => ...)` as a function
of the sort state and the `cryptos` list. -/
def sortedCryptos (col : Option SortKey) (ord : SortDir) (l : List Crypto) : List Crypto :=
  sortC (cryptoCmp col ord) l

/-- Write `v` into the numeric field `k` of a record. -/
def setNumField : NumKey → Option Int → Crypto → Crypto
  | NumKey.rank, v, c => { c with market_cap_rank := v }
  | NumKey.price, v, c => { c with current_price := v }
  | NumKey.marketCap, v, c => { c with market_cap := v }
  | NumKey.volume, v, c => { c with total_volume := v }
  | NumKey.p24h, v, c => { c with price_change_percentage_24h_in_currency := v }
  | NumKey.p7d, v, c => { c with price_change_percentage_7d_in_currency := v }
  | NumKey.p30d, v, c => { c with price_change_percentage_30d_in_currency := v }
  | NumKey.p1y, v, c => { c with price_change_percentage_1y_in_currency := v }

/-- Replace an absent value of the numeric field `k` by an explicit `0`
(a present value is rewritten to itself). -/
def fillZero (k : NumKey) (c : Crypto) : Crypto :=
  setNumField k (some (keyNum k c)) c

/-! ### A store model for the array copy in `[...cryptos].sort(...)`

JS arrays are heap references and `.sort` mutates its receiver in place;
the source first copies `cryptos` with the spread and sorts the copy. To
state the frame property (the input array object is untouched and the
result is a different array object) we model a store of arrays addressed
by allocation index. -/

/-- Read the array at reference `r` of the store. -/
def readArr (st : List (List Crypto)) (r : Nat) : List Crypto :=
  (st.get? r).getD []

/-- The statement `const sortedCryptos = [...cryptos].sort(cmp)` run
against a store in which `cryptos` is the array at reference `r`: the
spread allocates a fresh array holding a copy, `.sort` mutates that fresh
array in place, and the reference to it is returned. -/
def sortedCryptosApply (col : Option SortKey) (ord : SortDir)
    (st : List (List Crypto)) (r : Nat) : Nat × List (List Crypto) :=
  let copy := readArr st r
  let r2 := st.length
  let st2 := st ++ [copy]
  let st3 := st2.set r2 (sortC (cryptoCmp col ord) copy)
  (r2, st3)

/-! ### CSV exporter (`exportToCSV`, App.js 131-186) -/

/-- `value.replace(/"/g, '""')` on the character list of a string. -/
def escQ : List Char → List Char
  | [] => []
  | c :: cs => if c = '"' then '"' :: '"' :: escQ cs else c :: escQ cs

/-- The template `` `"${value.replace(/"/g, '""')}"` `` of App.js 155/157:
wrap in double quotes, doubling internal double quotes. -/
def quoteField (s : List Char) : List Char :=
  '"' :: (escQ s ++ ['"'])

/-- The decimal digit characters `'0'..'9'` (only ever applied below a
radix of ten). -/
def digit10 : Nat → Char
  | 0 => '0' | 1 => '1' | 2 => '2' | 3 => '3' | 4 => '4'
  | 5 => '5' | 6 => '6' | 7 => '7' | 8 => '8' | _ => '9'

/-- Decimal rendering of a natural number, fuelled by an upper bound on
the digit count so the recursion is structural (`n` has at most `n + 1`
decimal digits, so the fuel in `natChars` never runs out). -/
def natCharsAux : Nat → Nat → List Char
  | 0, _ => []
  | Nat.succ fuel, n =>
    if n < 10 then [digit10 n]
    else natCharsAux fuel (n / 10) ++ [digit10 (n % 10)]

/-- Decimal rendering of a natural number, as JS stringifies a
non-negative integer inside `Array.prototype.join`. -/
def natChars (n : Nat) : List Char :=
  natCharsAux (n + 1) n

/-- Decimal rendering of an integer (leading `-` when negative). -/
def intChars : Int → List Char
  | Int.ofNat n => natChars n
  | Int.negSucc n => '-' :: natChars (n + 1)

/-- How an optional number appears in the joined row: `getNumericValue`
maps `null`/`undefined` to `''`, and `join` stringifies a number in
decimal (an absent `market_cap_rank` also renders as `''`, because `join`
itself maps `null`/`undefined` to the empty string). -/
def numOptChars : Option Int → List Char
  | none => []
  | some i => intChars i

/-- `Array.prototype.join(sep)` over already-stringified elements. -/
def joinSep (sep : Char) : List (List Char) → List Char
  | [] => []
  | [x] => x
  | x :: y :: xs => x ++ sep :: joinSep sep (y :: xs)

/-- The `headers` array of App.js 138-141. -/
def csvHeaders : List String :=
  ["Rank", "Coin Name", "Symbol", "Category", "Price", "Market Cap",
   "Volume (24h)", "24h % Change", "7d % Change", "30d % Change", "1y % Change"]

/-- The element array of one data row (App.js 153-165), each element as
it is stringified by `join`: rank and the numeric columns through
`getNumericValue`, name and category quoted, symbol uppercased bare. -/
def csvRowFields (c : Crypto) : List (List Char) :=
  [ numOptChars c.market_cap_rank,
    quoteField c.name.data,
    c.symbol.data.map Char.toUpper,
    quoteField (exportedCategory c.category).data,
    numOptChars c.current_price,
    numOptChars c.market_cap,
    numOptChars c.total_volume,
    numOptChars c.price_change_percentage_24h_in_currency,
    numOptChars c.price_change_percentage_7d_in_currency,
    numOptChars c.price_change_percentage_30d_in_currency,
    numOptChars c.price_change_percentage_1y_in_currency ]

/-- One line of `csvRows`: the element array joined by `','`. -/
def csvRow (c : Crypto) : List Char :=
  joinSep ',' (csvRowFields c)

/-- `csvContent` (App.js 169-172): the header line and the data rows
joined by `'\n'`. -/
def csvContent (l : List Crypto) : List Char :=
  joinSep '\n' (joinSep ',' (csvHeaders.map String.data) :: l.map csvRow)

/-- The observable outcome of `exportToCSV`: either the early return that
only logs `"No data to export."`, or a download of the built text. -/
inductive ExportResult where
  | noData (loggedMsg : String)
  | download (content : String)
deriving DecidableEq, Repr

/-- `exportToCSV` (App.js 131-186) as a function of the (already sorted)
record list it closes over: empty input short-circuits before any text or
blob is built; otherwise the CSV text is built and handed to the download
trigger. -/
def exportToCSV (l : List Crypto) : ExportResult :=
  if l.length = 0 then ExportResult.noData "No data to export."
  else ExportResult.download (String.mk (csvContent l))

/-! ### An RFC 4180 reader, for the round-trip property

The spec's round-trip property quantifies over "any standard RFC 4180
parser"; this is one, over `List Char`, accepting a bare `'\n'` as the
row separator (the exporter joins rows with `'\n'`). A field either is
quoted - content between double quotes, with `""` decoding to one `"` -
or is bare, ending at the next `','` or `'\n'`. -/

/-- Decode a quoted field, positioned just after its opening quote.
Returns the decoded content and the input after the closing quote. -/
def parseQuoted : List Char → Option (List Char × List Char)
  | [] => none
  | c :: cs =>
    if c = '"' then
      match cs with
      | [] => some ([], [])
      | c2 :: cs2 =>
        if c2 = '"' then (parseQuoted cs2).map (fun fr => ('"' :: fr.1, fr.2))
        else some ([], cs)
    else (parseQuoted cs).map (fun fr => (c :: fr.1, fr.2))

/-- Read a bare field: everything up to the next `','` or `'\n'`. -/
def parseBare : List Char → List Char × List Char
  | [] => ([], [])
  | c :: cs =>
    if c = ',' ∨ c = '\n' then ([], c :: cs)
    else
      let pr := parseBare cs
      (c :: pr.1, pr.2)

/-- Read one field, quoted or bare. -/
def parseField (l : List Char) : Option (List Char × List Char) :=
  if l.head? = some '"' then parseQuoted l.tail else some (parseBare l)

/-- Read the fields of one row; the fuel bounds the number of fields.
Returns the field values and the input after the row (past its
terminating `'\n'`, when present). -/
def parseRowAux : Nat → List Char → Option (List (List Char) × List Char)
  | 0, _ => none
  | Nat.succ fuel, l =>
    match parseField l with
    | none => none
    | some (f, rest) =>
      match rest with
      | [] => some ([f], [])
      | c :: cs =>
        if c = ',' then (parseRowAux fuel cs).map (fun pr => (f :: pr.1, pr.2))
        else if c = '\n' then some ([f], cs)
        else none

/-- Read one row (a row of `n` fields sits in at least `n - 1` characters,
so `length + 1` fields of fuel always suffice). -/
def parseRow (l : List Char) : Option (List (List Char) × List Char) :=
  parseRowAux (l.length + 1) l

/-- Read all rows; the fuel bounds the number of rows. -/
def parseCSVAux : Nat → List Char → Option (List (List (List Char)))
  | 0, _ => none
  | Nat.succ fuel, l =>
    if l = [] then some []
    else
      match parseRow l with
      | none => none
      | some (fs, rest) => (parseCSVAux fuel rest).map (fun rs => fs :: rs)

/-- Parse a whole CSV text into its rows of field values. -/
def parseCSV (l : List Char) : Option (List (List (List Char))) :=
  parseCSVAux (l.length + 1) l

/-- The field values an RFC 4180 reader recovers from one exported row:
the unquoted name, the uppercased symbol, the category after
N/A-defaulting and the label mapping, and the decimal renderings of the
numeric columns (empty when absent). -/
def csvRowValues (c : Crypto) : List (List Char) :=
  [ numOptChars c.market_cap_rank,
    c.name.data,
    c.symbol.data.map Char.toUpper,
    (exportedCategory c.category).data,
    numOptChars c.current_price,
    numOptChars c.market_cap,
    numOptChars c.total_volume,
    numOptChars c.price_change_percentage_24h_in_currency,
    numOptChars c.price_change_percentage_7d_in_currency,
    numOptChars c.price_change_percentage_30d_in_currency,
    numOptChars c.price_change_percentage_1y_in_currency ]

/-- The header row as field values. -/
def csvHeaderValues : List (List Char) :=
  csvHeaders.map String.data

/-- A record's symbol is CSV-safe when its uppercased form contains no
separator or quote character; the exporter emits the symbol bare, so this
is the condition under which that field survives a parse. -/
def symbolSafe (c : Crypto) : Prop :=
  ∀ ch ∈ c.symbol.data.map Char.toUpper, ch ≠ ',' ∧ ch ≠ '"' ∧ ch ≠ '\n'

/-- The quoting requirement in the spec's own words: the rendered field
is the raw value wrapped in double quotes with each internal double quote
doubled. Stated independently of `escQ` so the exporter can be compared
against it. -/
def specQuotedField (s : List Char) : List Char :=
  '"' :: ((s.map (fun c => if c = '"' then ['"', '"'] else [c])).flatten ++ ['"'])

/-! ### Concrete records used in examples, counterexamples and witnesses -/

/-- The spec example record `{id:"a",rank:2,price:10}`. -/
def cRecA : Crypto :=
  { baseCrypto with id := "a", market_cap_rank := some 2, current_price := some 10 }

/-- The spec example record `{id:"b",rank:1,price:20}`. -/
def cRecB : Crypto :=
  { baseCrypto with id := "b", market_cap_rank := some 1, current_price := some 20 }

/-- The spec example record `{id:"c",rank:1,price:5}`. -/
def cRecC : Crypto :=
  { baseCrypto with id := "c", market_cap_rank := some 1, current_price := some 5 }

/-- A raw record (category not yet enriched). -/
def cFail : Crypto :=
  { baseCrypto with id := "x", name := "X", symbol := "x" }

/-- A plain record whose symbol is `"btc"`. -/
def cBtc : Crypto :=
  { baseCrypto with
      id := "bitcoin"
      name := "Bitcoin"
      symbol := "btc"
      market_cap_rank := some 1 }

/-- The spec CSV example record: name `Co"in`, rank 1, price absent. -/
def cCoin : Crypto :=
  { baseCrypto with id := "x", name := "Co\"in", market_cap_rank := some 1 }

/-- A record whose symbol contains a comma. -/
def cBadSym : Crypto :=
  { baseCrypto with id := "y", name := "A", symbol := "a,b" }

/-!
## Theorems
-/

/-- C9: exporting an empty record list short-circuits: no CSV text and no
download are produced, the outcome is the logged "no data" report
(`console.log("No data to export."); return`), and no error is raised
(the function is total). -/
theorem exportEmptyNoOp :
    exportToCSV [] = ExportResult.noData "No data to export." := rfl

/-- C10: a category equal to exactly `"Smart Contract Platform"` is
rendered - in the table cell and in the CSV export - as
`"Major > 80% allocation permitted"`; any other non-empty category passes
through unchanged; an absent or empty category renders as `"N/A"`; and
the CSV row carries the quoted exported category in its fourth column. -/
theorem categoryLabelMapping :
    (displayCategory (some "Smart Contract Platform") = "Major > 80% allocation permitted"
      ∧ exportedCategory (some "Smart Contract Platform") = "Major > 80% allocation permitted")
    ∧ (∀ s : String, s ≠ "" → s ≠ "Smart Contract Platform" →
        displayCategory (some s) = s ∧ exportedCategory (some s) = s)
    ∧ (displayCategory none = "N/A" ∧ displayCategory (some "") = "N/A"
      ∧ exportedCategory none = "N/A" ∧ exportedCategory (some "") = "N/A")
    ∧ (∀ c : Crypto,
        (csvRowFields c).get? 3 = some (quoteField (exportedCategory c.category).data)) := by
  refine ⟨⟨by decide, by decide⟩, ?_, ⟨by decide, by decide, by decide, by decide⟩, fun c => rfl⟩
  intro s h1 h2
  constructor
  · simp [displayCategory, catOrNA, h1, h2]
  · simp [exportedCategory, catOrNA, h1, h2]

/-- Witness for `categoryLabelMapping` at the concrete category
`"Stablecoins"`. -/
theorem categoryLabelMappingWitness :
    displayCategory (some "Stablecoins") = "Stablecoins"
    ∧ exportedCategory (some "Stablecoins") = "Stablecoins" :=
  categoryLabelMapping.2.1 "Stablecoins" (by decide) (by decide)

/-- C1 counterexample: with a lookup that fails for the record `cFail`,
the enriched batch holds the record with `category = some "N/A"` - a
string value, not an absent field - so the claim that the record is
retained "with its category field absent" is false on the code. -/
theorem enrichFailureCategoryPresent :
    cryptosWithCategories (fun _ => DetailFetch.fail) [cFail]
      = [{ cFail with category := some "N/A" }]
    ∧ (cryptosWithCategories (fun _ => DetailFetch.fail) [cFail]).map Crypto.category
      = [some "N/A"]
    ∧ (some "N/A" : Option String) ≠ none := by
  refine ⟨rfl, rfl, by decide⟩

/-- C1 amended: when the per-record enrichment lookup fails for a record,
that record is retained at its position with `category` set to the string
`"N/A"` and every other field unchanged, and the failure does not abort
or drop any other record of the batch (each position is enriched
independently and the batch length is preserved). -/
theorem enrichFailurePerRecord (lookup : String → DetailFetch) (l : List Crypto) :
    (cryptosWithCategories lookup l).length = l.length
    ∧ (∀ i c, l.get? i = some c →
        (cryptosWithCategories lookup l).get? i = some (enrichOne (lookup c.id) c))
    ∧ (∀ c, lookup c.id = DetailFetch.fail →
        enrichOne (lookup c.id) c = { c with category := some "N/A" })
    ∧ (∀ res c, { enrichOne res c with category := c.category } = c) := by
  refine ⟨List.length_map _ _, ?_, ?_, ?_⟩
  · intro i c hc
    unfold cryptosWithCategories
    rw [List.get?_map, hc]
    rfl
  · intro c h
    rw [h]
    rfl
  · intro res c
    cases res with
    | fail => rfl
    | ok cats =>
      match cats with
      | none => rfl
      | some [] => rfl
      | some (x :: _) => rfl

/-- Witness for `enrichFailurePerRecord`: a concrete two-record batch in
which the lookup fails for the first record only. -/
theorem enrichFailurePerRecordWitness :
    (cryptosWithCategories (fun s => if s = "x" then DetailFetch.fail
        else DetailFetch.ok (some ["L1"])) [cFail, cBtc]).length = 2
    ∧ (cryptosWithCategories (fun s => if s = "x" then DetailFetch.fail
        else DetailFetch.ok (some ["L1"])) [cFail, cBtc]).get? 0
      = some { cFail with category := some "N/A" } := by
  have h := enrichFailurePerRecord
    (fun s => if s = "x" then DetailFetch.fail else DetailFetch.ok (some ["L1"]))
    [cFail, cBtc]
  refine ⟨h.1, ?_⟩
  have h2 := h.2.1 0 cFail rfl
  exact h2

/-- C7: for any input list, a record of rank 1-8 lands in `majors` and
not in `altcoins`, a record of rank 9-200 lands in `altcoins` and not in
`majors`, and a record with no rank or a rank outside both ranges lands
in neither bucket. -/
theorem partitionRanks (l : List Crypto) (c : Crypto) (hc : c ∈ l) :
    (∀ r : Int, c.market_cap_rank = some r → 1 ≤ r → r ≤ 8 →
      c ∈ majors l ∧ c ∉ altcoins l)
    ∧ (∀ r : Int, c.market_cap_rank = some r → 9 ≤ r → r ≤ 200 →
      c ∈ altcoins l ∧ c ∉ majors l)
    ∧ (c.market_cap_rank = none → c ∉ majors l ∧ c ∉ altcoins l)
    ∧ (∀ r : Int, c.market_cap_rank = some r → (r < 1 ∨ 200 < r) →
      c ∉ majors l ∧ c ∉ altcoins l) := by
  refine ⟨?_, ?_, ?_, ?_⟩
  · intro r hr h1 h8
    constructor
    · exact List.mem_filter.mpr ⟨hc, by simp [rankInRange, hr]; omega⟩
    · intro hm
      have h2 := (List.mem_filter.mp hm).2
      simp [rankInRange, hr] at h2
      omega
  · intro r hr h9 h200
    constructor
    · exact List.mem_filter.mpr ⟨hc, by simp [rankInRange, hr]; omega⟩
    · intro hm
      have h2 := (List.mem_filter.mp hm).2
      simp [rankInRange, hr] at h2
      omega
  · intro hr
    constructor
    · intro hm
      have h2 := (List.mem_filter.mp hm).2
      simp [rankInRange, hr] at h2
    · intro hm
      have h2 := (List.mem_filter.mp hm).2
      simp [rankInRange, hr] at h2
  · intro r hr hout
    constructor
    · intro hm
      have h2 := (List.mem_filter.mp hm).2
      simp [rankInRange, hr] at h2
      omega
    · intro hm
      have h2 := (List.mem_filter.mp hm).2
      simp [rankInRange, hr] at h2
      omega

/-- Witness for `partitionRanks`: in the batch `[cRecB, cRecA]` the
rank-1 record is in `majors` and not in `altcoins`. -/
theorem partitionRanksWitness :
    cRecB ∈ majors [cRecB, cRecA] ∧ cRecB ∉ altcoins [cRecB, cRecA] := by
  have h := partitionRanks [cRecB, cRecA] cRecB (by simp)
  exact h.1 1 rfl (by omega) (by omega)

/-- C8: clicking a column that is not the currently selected one (in
particular any first click) selects that column with descending order;
clicking the currently selected column keeps it selected and flips the
direction. Since the second and third parts quantify over every state,
the characterization holds along every sequence of clicks. -/
theorem handleSortSpec :
    (∀ c, handleSort c initialSortState
        = { column := some c, order := SortDir.desc })
    ∧ (∀ s c, s.column ≠ some c →
        handleSort c s = { column := some c, order := SortDir.desc })
    ∧ (∀ s c, s.column = some c →
        handleSort c s = { column := some c, order := flipDir s.order }) := by
  refine ⟨?_, ?_, ?_⟩
  · intro c
    simp [handleSort, initialSortState]
  · intro s c h
    simp [handleSort, h]
  · intro s c h
    simp [handleSort, h]

/-- Witness for `handleSortSpec`: a click on the selected 24h column
flips descending to ascending, and a click on a different column resets
to descending. -/
theorem handleSortSpecWitness :
    handleSort (SortKey.num NumKey.p24h)
        { column := some (SortKey.num NumKey.p24h), order := SortDir.desc }
      = { column := some (SortKey.num NumKey.p24h), order := SortDir.asc }
    ∧ handleSort SortKey.category
        { column := some (SortKey.num NumKey.p24h), order := SortDir.desc }
      = { column := some SortKey.category, order := SortDir.desc } := by
  constructor
  · exact handleSortSpec.2.2 _ _ rfl
  · exact handleSortSpec.2.1 _ _ (by decide)

/-! ### Stability and purity of the sorter -/

/-- Membership in an insertion is membership in the old list or being the
inserted element. -/
theorem mem_insertC {α : Type} (cmp : α → α → Int) (a x : α) :
    ∀ l : List α, x ∈ insertC cmp a l ↔ x = a ∨ x ∈ l
  | [] => by simp [insertC]
  | b :: bs => by
    simp only [insertC]
    split
    · simp [or_comm, or_assoc, or_left_comm]
    · simp only [List.mem_cons, mem_insertC cmp a x bs]
      tauto

/-- Inserting under a comparator that mirrors a linear-order measure
preserves sortedness by that measure. -/
theorem pairwise_insertC {α M : Type} [LinearOrder M] (cmp : α → α → Int) (m : α → M)
    (hlt : ∀ x y, cmp x y < 0 ↔ m x < m y) (a : α) :
    ∀ l : List α, l.Pairwise (fun x y => m x ≤ m y) →
      (insertC cmp a l).Pairwise (fun x y => m x ≤ m y)
  | [], _ => by simp [insertC]
  | b :: bs, h => by
    rw [List.pairwise_cons] at h
    obtain ⟨hb, hbs⟩ := h
    simp only [insertC]
    split
    · rename_i hab
      have hab' : m a < m b := (hlt a b).mp hab
      refine List.Pairwise.cons ?_ (List.Pairwise.cons hb hbs)
      intro z hz
      rcases List.mem_cons.mp hz with hz | hz
      · exact hz ▸ le_of_lt hab'
      · exact le_trans (le_of_lt hab') (hb z hz)
    · rename_i hab
      have hba : m b ≤ m a := le_of_not_lt (fun hlt' => hab ((hlt a b).mpr hlt'))
      refine List.Pairwise.cons ?_ (pairwise_insertC cmp m hlt a bs hbs)
      intro z hz
      rcases (mem_insertC cmp a z bs).mp hz with hz | hz
      · exact hz ▸ hba
      · exact hb z hz

/-- Inserting an element outside the tracked class does not disturb the
class's subsequence. -/
theorem filter_insertC_neg {α : Type} (cmp : α → α → Int) (p : α → Bool) (a : α)
    (ha : p a = false) :
    ∀ l : List α, (insertC cmp a l).filter p = l.filter p
  | [] => by simp [insertC, List.filter, ha]
  | b :: bs => by
    simp only [insertC]
    split
    · simp [List.filter_cons, ha]
    · simp [List.filter_cons, filter_insertC_neg cmp p a ha bs]

/-- Inserting an element of the tracked class into a sorted list appends
it after the class members already present: stability of one insertion. -/
theorem filter_insertC_pos {α M : Type} [LinearOrder M] (cmp : α → α → Int) (m : α → M)
    (hlt : ∀ x y, cmp x y < 0 ↔ m x < m y) (p : α → Bool)
    (hp : ∀ x y, p x = true → p y = true → m x = m y) (a : α) (ha : p a = true) :
    ∀ l : List α, l.Pairwise (fun x y => m x ≤ m y) →
      (insertC cmp a l).filter p = l.filter p ++ [a]
  | [], _ => by simp [insertC, List.filter, ha]
  | b :: bs, h => by
    rw [List.pairwise_cons] at h
    obtain ⟨hb, hbs⟩ := h
    simp only [insertC]
    split
    · rename_i hab
      have hab' : m a < m b := (hlt a b).mp hab
      have hnil : (b :: bs).filter p = [] := by
        rw [List.filter_eq_nil]
        intro z hz hpz
        have hz' : m b ≤ m z := by
          rcases List.mem_cons.mp hz with h1 | h1
          · exact h1 ▸ le_rfl
          · exact hb z h1
        have : m z = m a := hp z a hpz ha
        exact absurd (lt_of_lt_of_le hab' hz') (by rw [this]; exact lt_irrefl _)
      simp [List.filter_cons, ha, hnil]
    · rw [List.filter_cons, List.filter_cons,
        filter_insertC_pos cmp m hlt p hp a ha bs hbs]
      cases hpb : p b <;> simp [hpb]

/-- The fold underlying `sortC` keeps the accumulator sorted and extends
the tracked class's subsequence in input order. -/
theorem sortC_fold_filter {α M : Type} [LinearOrder M] (cmp : α → α → Int) (m : α → M)
    (hlt : ∀ x y, cmp x y < 0 ↔ m x < m y) (p : α → Bool)
    (hp : ∀ x y, p x = true → p y = true → m x = m y) :
    ∀ (l acc : List α), acc.Pairwise (fun x y => m x ≤ m y) →
      (l.foldl (fun acc x => insertC cmp x acc) acc).filter p
        = acc.filter p ++ l.filter p
  | [], acc, _ => by simp
  | x :: l, acc, hacc => by
    rw [List.foldl_cons]
    rw [sortC_fold_filter cmp m hlt p hp l (insertC cmp x acc)
      (pairwise_insertC cmp m hlt x acc hacc)]
    rcases hpx : p x with _ | _
    · rw [filter_insertC_neg cmp p x hpx acc]
      simp [List.filter_cons, hpx]
    · rw [filter_insertC_pos cmp m hlt p hp x hpx acc hacc]
      simp [List.filter_cons, hpx]

/-- Stability of `sortC` for a comparator that mirrors a linear-order
measure: the subsequence of any class of elements with equal measure is
exactly its subsequence in the input. -/
theorem sortC_filter {α M : Type} [LinearOrder M] (cmp : α → α → Int) (m : α → M)
    (hlt : ∀ x y, cmp x y < 0 ↔ m x < m y) (p : α → Bool)
    (hp : ∀ x y, p x = true → p y = true → m x = m y) (l : List α) :
    (sortC cmp l).filter p = l.filter p := by
  have h := sortC_fold_filter cmp m hlt p hp l [] (by simp)
  simpa [sortC] using h

/-- `strCmp` is negative exactly when its first argument is smaller. -/
theorem strCmp_lt_iff (a b : String) : strCmp a b < 0 ↔ a < b := by
  unfold strCmp
  split_ifs with h1 h2
  · exact iff_of_true (by norm_num) h1
  · exact iff_of_false (by norm_num) h1
  · exact iff_of_false (by norm_num) h1

/-- `strCmp` is zero exactly on equal strings. -/
theorem strCmp_eq_zero_iff (a b : String) : strCmp a b = 0 ↔ a = b := by
  unfold strCmp
  split_ifs with h1 h2
  · exact iff_of_false (by norm_num) (ne_of_lt h1)
  · exact iff_of_false (by norm_num) (fun h => absurd h2 (by rw [h]; exact lt_irrefl _))
  · exact iff_of_true rfl (le_antisymm (le_of_not_lt h2) (le_of_not_lt h1))

/-- C4: the sort is stable - for every sort key and direction, the
subsequence of records whose sort-key values compare equal (comparator
zero) is exactly their subsequence in the input, so any two such records
keep their relative order - and the spec's concrete example sorts as
`[b, c, a]`. -/
theorem sortStable :
    (∀ (col : Option SortKey) (ord : SortDir) (p : Crypto → Bool) (l : List Crypto),
      (∀ x y, p x = true → p y = true → cryptoCmp col ord x y = 0) →
      (sortedCryptos col ord l).filter p = l.filter p)
    ∧ sortedCryptos (some (SortKey.num NumKey.rank)) SortDir.asc [cRecA, cRecB, cRecC]
      = [cRecB, cRecC, cRecA] := by
  constructor
  · intro col ord p l hcmp
    unfold sortedCryptos
    cases col with
    | none =>
      refine sortC_filter _ (fun _ => (0 : Int)) ?_ p ?_ l
      · intro x y
        simp [cryptoCmp]
      · intro x y _ _
        rfl
    | some k =>
      cases k with
      | category =>
        cases ord with
        | asc =>
          refine sortC_filter _ keyCat ?_ p ?_ l
          · intro x y
            simp only [cryptoCmp, reduceIte]
            exact strCmp_lt_iff _ _
          · intro x y hx hy
            have h := hcmp x y hx hy
            simp only [cryptoCmp, reduceIte] at h
            exact (strCmp_eq_zero_iff _ _).mp h
        | desc =>
          refine sortC_filter _ (fun c => OrderDual.toDual (keyCat c)) ?_ p ?_ l
          · intro x y
            simp only [cryptoCmp]
            rw [if_neg (by decide), strCmp_lt_iff]
            exact (OrderDual.toDual_lt_toDual).symm
          · intro x y hx hy
            have h := hcmp x y hx hy
            simp only [cryptoCmp] at h
            rw [if_neg (by decide)] at h
            have h2 := (strCmp_eq_zero_iff _ _).mp h
            exact congrArg OrderDual.toDual h2.symm
      | num nk =>
        cases ord with
        | asc =>
          refine sortC_filter _ (keyNum nk) ?_ p ?_ l
          · intro x y
            simp only [cryptoCmp, reduceIte]
            exact sub_neg
          · intro x y hx hy
            have h := hcmp x y hx hy
            simp only [cryptoCmp, reduceIte] at h
            exact sub_eq_zero.mp h
        | desc =>
          refine sortC_filter _ (fun c => OrderDual.toDual (keyNum nk c)) ?_ p ?_ l
          · intro x y
            simp only [cryptoCmp]
            rw [if_neg (by decide), sub_neg]
            exact (OrderDual.toDual_lt_toDual).symm
          · intro x y hx hy
            have h := hcmp x y hx hy
            simp only [cryptoCmp] at h
            rw [if_neg (by decide)] at h
            exact congrArg OrderDual.toDual (sub_eq_zero.mp h).symm
  · decide

/-- Witness for `sortStable`: the rank-1 class of the example input keeps
its input order through the sort. -/
theorem sortStableWitness :
    (sortedCryptos (some (SortKey.num NumKey.rank)) SortDir.asc
        [cRecA, cRecB, cRecC]).filter (fun c => decide (c.market_cap_rank = some 1))
      = [cRecA, cRecB, cRecC].filter (fun c => decide (c.market_cap_rank = some 1)) := by
  refine sortStable.1 (some (SortKey.num NumKey.rank)) SortDir.asc
    (fun c => decide (c.market_cap_rank = some 1)) [cRecA, cRecB, cRecC] ?_
  intro x y hx hy
  have hx' : x.market_cap_rank = some 1 := of_decide_eq_true hx
  have hy' : y.market_cap_rank = some 1 := of_decide_eq_true hy
  simp [cryptoCmp, keyNum, numFieldOf, hx', hy']

/-- The comparator of a numeric key only reads that key, so it is
invariant under rewriting the key's absent value to an explicit zero. -/
theorem numFieldOf_setNumField (k : NumKey) (v : Option Int) (c : Crypto) :
    numFieldOf k (setNumField k v c) = v := by
  cases k <;> rfl

/-- `fillZero` does not change the effective sort value of its key. -/
theorem keyNum_fillZero (k : NumKey) (c : Crypto) :
    keyNum k (fillZero k c) = keyNum k c := by
  unfold keyNum fillZero
  rw [numFieldOf_setNumField]
  rfl

/-- Inserting commutes with a map under which the comparator is
invariant. -/
theorem insertC_map {α : Type} (cmp : α → α → Int) (f : α → α)
    (h : ∀ x y, cmp (f x) (f y) = cmp x y) (a : α) :
    ∀ l : List α, insertC cmp (f a) (l.map f) = (insertC cmp a l).map f
  | [] => by simp [insertC]
  | b :: bs => by
    simp only [List.map_cons, insertC, h a b]
    split
    · simp
    · simp [insertC_map cmp f h a bs]

/-- Sorting commutes with a map under which the comparator is
invariant. -/
theorem sortC_map {α : Type} (cmp : α → α → Int) (f : α → α)
    (h : ∀ x y, cmp (f x) (f y) = cmp x y) :
    ∀ l acc : List α,
      (l.map f).foldl (fun acc x => insertC cmp x acc) (acc.map f)
        = (l.foldl (fun acc x => insertC cmp x acc) acc).map f
  | [], acc => by simp
  | x :: l, acc => by
    simp only [List.map_cons, List.foldl_cons]
    rw [insertC_map cmp f h x acc]
    exact sortC_map cmp f h l (insertC cmp x acc)

/-- C5: for every numeric sort key and both directions, a record with the
key absent sorts exactly as if the key's value were `0`: replacing every
absent value of the key by an explicit `0` before sorting yields the same
output order (the sort commutes with the replacement). -/
theorem sortAbsentAsZero (k : NumKey) (ord : SortDir) (l : List Crypto) :
    sortedCryptos (some (SortKey.num k)) ord (l.map (fillZero k))
      = (sortedCryptos (some (SortKey.num k)) ord l).map (fillZero k) := by
  unfold sortedCryptos sortC
  have hinv : ∀ x y,
      cryptoCmp (some (SortKey.num k)) ord (fillZero k x) (fillZero k y)
        = cryptoCmp (some (SortKey.num k)) ord x y := by
    intro x y
    cases ord <;> simp [cryptoCmp, keyNum_fillZero]
  have h := sortC_map (cryptoCmp (some (SortKey.num k)) ord) (fillZero k) hinv l []
  simpa using h

/-- C6: the sort reads its input array and leaves it untouched - in the
store model, running `const sortedCryptos = [...cryptos].sort(cmp)`
leaves the array at the input reference unchanged (same length, same
elements, same order), returns a reference distinct from the input
reference (a new list, not the input list), and the new array holds the
sorted output of the input's value. -/
theorem sortPure (col : Option SortKey) (ord : SortDir)
    (st : List (List Crypto)) (r : Nat) (hr : r < st.length) :
    readArr (sortedCryptosApply col ord st r).2 r = readArr st r
    ∧ (sortedCryptosApply col ord st r).1 ≠ r
    ∧ readArr (sortedCryptosApply col ord st r).2 (sortedCryptosApply col ord st r).1
      = sortedCryptos col ord (readArr st r) := by
  have hset : ∀ (l : List (List Crypto)) (x y : List Crypto),
      (l ++ [x]).set l.length y = l ++ [y] := by
    intro l
    induction l with
    | nil => intro x y; rfl
    | cons a t ih =>
      intro x y
      simp only [List.cons_append, List.length_cons, List.set_cons_succ]
      rw [ih]
  unfold sortedCryptosApply readArr
  simp only [hset]
  refine ⟨?_, ?_, ?_⟩
  · rw [List.get?_append hr]
  · omega
  · rw [List.get?_concat_length]
    rfl

/-- Witness for `sortPure`: a one-array store. -/
theorem sortPureWitness :
    readArr (sortedCryptosApply none SortDir.desc [[cRecA]] 0).2 0
      = readArr [[cRecA]] 0
    ∧ (sortedCryptosApply none SortDir.desc [[cRecA]] 0).1 ≠ 0 := by
  have h := sortPure none SortDir.desc [[cRecA]] 0 (by norm_num)
  exact ⟨h.1, h.2.1⟩

/-! ### CSV field rendering -/

/-- The exporter's quote-escaping is exactly the spec's "internal double
quotes doubled". -/
theorem escQ_eq_spec : ∀ s : List Char,
    escQ s = (s.map (fun c => if c = '"' then ['"', '"'] else [c])).flatten
  | [] => rfl
  | c :: cs => by
    simp only [escQ, List.map_cons, List.flatten_cons]
    split
    · rename_i h
      simp [h, escQ_eq_spec cs]
    · rename_i h
      simp [h, escQ_eq_spec cs]

/-- The exporter's quoted-field template refines the spec's wording. -/
theorem quoteField_eq_spec (s : List Char) : quoteField s = specQuotedField s := by
  unfold quoteField specQuotedField
  rw [escQ_eq_spec]

/-- C2 counterexample: for the record `cBtc` the symbol field of the
exported row is the bare string `BTC`, which does not start with a double
quote - so the claim that every string field (name, symbol, category) is
wrapped in double quotes is false on the code. -/
theorem csvSymbolUnquoted :
    (csvRowFields cBtc).get? 2 = some "BTC".data
    ∧ "BTC".data.head? ≠ some '"' := by
  constructor
  · decide
  · decide

/-- C2 amended: the name and category fields are wrapped in double quotes
with internal double quotes doubled (the spec's RFC 4180 quoting,
`specQuotedField`); the symbol field is the uppercased symbol, unquoted;
numeric fields (including rank) render as the empty string when absent
and as the decimal literal otherwise; and for the record with name
`Co"in` and absent price, the name field renders as `"Co""in"` and the
price field as the empty string. -/
theorem csvFieldRendering :
    (∀ s : List Char, quoteField s = specQuotedField s)
    ∧ (∀ c : Crypto,
        (csvRowFields c).get? 1 = some (specQuotedField c.name.data)
        ∧ (csvRowFields c).get? 3 = some (specQuotedField (exportedCategory c.category).data)
        ∧ (csvRowFields c).get? 2 = some (c.symbol.data.map Char.toUpper)
        ∧ (csvRowFields c).get? 0 = some (numOptChars c.market_cap_rank)
        ∧ (csvRowFields c).get? 4 = some (numOptChars c.current_price))
    ∧ numOptChars none = []
    ∧ (∀ i : Int, numOptChars (some i) = intChars i)
    ∧ (csvRowFields cCoin).get? 1 = some "\"Co\"\"in\"".data
    ∧ (csvRowFields cCoin).get? 4 = some [] := by
  refine ⟨quoteField_eq_spec, ?_, rfl, fun i => rfl, by decide, by decide⟩
  intro c
  refine ⟨?_, ?_, rfl, rfl, rfl⟩
  · show some (quoteField c.name.data) = _
    rw [quoteField_eq_spec]
  · show some (quoteField (exportedCategory c.category).data) = _
    rw [quoteField_eq_spec]

/-! ### Round trip: parsing inverts the exporter's rendering -/

/-- Reading a quoted field inverts quote-escaping: after the escaped
content and its closing quote, parsing recovers the raw content, provided
the text after the closing quote does not itself begin with a quote. -/
theorem parseQuoted_escQ : ∀ (s rest : List Char), rest.head? ≠ some '"' →
    parseQuoted (escQ s ++ '"' :: rest) = some (s, rest)
  | [], rest, h => by
    show parseQuoted ('"' :: rest) = some ([], rest)
    cases rest with
    | nil => rfl
    | cons c2 cs2 =>
      have hc2 : ¬(c2 = '"') := fun he => h (by rw [he]; rfl)
      simp [parseQuoted, hc2]
  | a :: t, rest, h => by
    by_cases ha : a = '"'
    · subst ha
      have he : escQ ('"' :: t) = '"' :: '"' :: escQ t := by simp [escQ]
      rw [he]
      show parseQuoted ('"' :: '"' :: (escQ t ++ '"' :: rest)) = _
      have hstep : parseQuoted ('"' :: '"' :: (escQ t ++ '"' :: rest))
          = (parseQuoted (escQ t ++ '"' :: rest)).map (fun fr => ('"' :: fr.1, fr.2)) := by
        rw [parseQuoted.eq_def]
        norm_num
      rw [hstep, parseQuoted_escQ t rest h]
      rfl
    · have he : escQ (a :: t) = a :: escQ t := by simp [escQ, ha]
      rw [he]
      show parseQuoted (a :: (escQ t ++ '"' :: rest)) = _
      have hstep : parseQuoted (a :: (escQ t ++ '"' :: rest))
          = (parseQuoted (escQ t ++ '"' :: rest)).map (fun fr => (a :: fr.1, fr.2)) := by
        rw [parseQuoted.eq_def]
        simp only []
        rw [if_neg ha]
      rw [hstep, parseQuoted_escQ t rest h]
      rfl

/-- Reading a bare field stops exactly at the delimiter: a
separator-free prefix is returned whole. -/
theorem parseBare_append : ∀ (s rest : List Char),
    (∀ c ∈ s, c ≠ ',' ∧ c ≠ '\n') →
    (rest = [] ∨ rest.head? = some ',' ∨ rest.head? = some '\n') →
    parseBare (s ++ rest) = (s, rest)
  | [], rest, _, hrest => by
    rcases hrest with h | h | h
    · subst h
      rfl
    · cases rest with
      | nil => simp at h
      | cons c cs =>
        have hc : c = ',' := by simpa using h
        subst hc
        simp [parseBare]
    · cases rest with
      | nil => simp at h
      | cons c cs =>
        have hc : c = '\n' := by simpa using h
        subst hc
        simp [parseBare]
  | a :: t, rest, hs, hrest => by
    have ha := hs a (by simp)
    have h1 : ¬(a = ',' ∨ a = '\n') := by
      rintro (h | h)
      · exact ha.1 h
      · exact ha.2 h
    show parseBare (a :: (t ++ rest)) = (a :: t, rest)
    simp only [parseBare, if_neg h1]
    rw [parseBare_append t rest (fun c hc => hs c (by simp [hc])) hrest]

/-- A rendered field parses back to its value whenever the remaining
input is empty or starts at a delimiter. -/
def fieldOK (rend val : List Char) : Prop :=
  ∀ rest, (rest = [] ∨ rest.head? = some ',' ∨ rest.head? = some '\n') →
    parseField (rend ++ rest) = some (val, rest)

/-- A quoted field always parses back to its raw value. -/
theorem fieldOK_quoted (s : List Char) : fieldOK (quoteField s) s := by
  intro rest hrest
  have hq : rest.head? ≠ some '"' := by
    rcases hrest with h | h | h
    · subst h
      simp
    · rw [h]
      decide
    · rw [h]
      decide
  show parseField (('"' :: (escQ s ++ ['"'])) ++ rest) = some (s, rest)
  unfold parseField
  have h1 : (('"' :: (escQ s ++ ['"'])) ++ rest).head? = some '"' := rfl
  rw [h1, if_pos rfl]
  show parseQuoted ((escQ s ++ ['"']) ++ rest) = some (s, rest)
  rw [List.append_assoc]
  exact parseQuoted_escQ s rest hq

/-- A bare field free of delimiters and quotes parses back to itself. -/
theorem fieldOK_bare (s : List Char)
    (hs : ∀ c ∈ s, c ≠ ',' ∧ c ≠ '"' ∧ c ≠ '\n') : fieldOK s s := by
  intro rest hrest
  unfold parseField
  cases s with
  | nil =>
    have hh : (([] : List Char) ++ rest).head? ≠ some '"' := by
      rcases hrest with h | h | h
      · subst h
        simp
      · simp only [List.nil_append, h]
        decide
      · simp only [List.nil_append, h]
        decide
    rw [if_neg hh]
    have hb := parseBare_append [] rest (by simp) hrest
    simp only [List.nil_append] at hb ⊢
    rw [hb]
  | cons a t =>
    have ha := hs a (by simp)
    have hh : ((a :: t) ++ rest).head? ≠ some '"' := by
      simp only [List.cons_append, List.head?_cons]
      intro he
      exact ha.2.1 (by simpa using he)
    rw [if_neg hh]
    rw [parseBare_append (a :: t) rest (fun c hc => ⟨(hs c hc).1, (hs c hc).2.2⟩) hrest]

/-- Reading one row inverts joining fields with `','`: with enough fuel
for the field count, the parsed fields are the rendered fields' values,
both with a `'\n'` terminator and at end of input. -/
theorem parseRowAux_join : ∀ (rends vals : List (List Char)),
    List.Forall₂ fieldOK rends vals → rends ≠ [] → ∀ fuel, rends.length ≤ fuel →
    (∀ rest2, parseRowAux fuel (joinSep ',' rends ++ '\n' :: rest2) = some (vals, rest2))
    ∧ parseRowAux fuel (joinSep ',' rends) = some (vals, [])
  | [], _, _, hne, _, _ => absurd rfl hne
  | [r], vals, hf, _, fuel, hfuel => by
    cases hf with
    | cons h1 h2 =>
      cases h2
      match fuel, hfuel with
      | Nat.succ f, _ =>
        constructor
        · intro rest2
          show parseRowAux (Nat.succ f) (r ++ '\n' :: rest2) = _
          have hp := h1 ('\n' :: rest2) (Or.inr (Or.inr rfl))
          simp only [parseRowAux, hp]
          rfl
        · show parseRowAux (Nat.succ f) (joinSep ',' [r]) = _
          have hp := h1 [] (Or.inl rfl)
          rw [List.append_nil] at hp
          show parseRowAux (Nat.succ f) r = _
          simp only [parseRowAux, hp]
  | r :: r2 :: rs, vals, hf, _, fuel, hfuel => by
    cases hf with
    | cons h1 h2 =>
      have hne2 : r2 :: rs ≠ [] := by simp
      match fuel, hfuel with
      | Nat.succ f, hfuel =>
        have hfuel2 : (r2 :: rs).length ≤ f := by
          simp only [List.length_cons] at hfuel ⊢
          omega
        have ih := parseRowAux_join (r2 :: rs) _ h2 hne2 f hfuel2
        constructor
        · intro rest2
          show parseRowAux (Nat.succ f)
            ((r ++ ',' :: joinSep ',' (r2 :: rs)) ++ '\n' :: rest2) = _
          rw [List.append_assoc, List.cons_append]
          have hp := h1 (',' :: (joinSep ',' (r2 :: rs) ++ '\n' :: rest2))
            (Or.inr (Or.inl rfl))
          simp [parseRowAux, hp, ih.1]
        · show parseRowAux (Nat.succ f) (r ++ ',' :: joinSep ',' (r2 :: rs)) = _
          have hp := h1 (',' :: joinSep ',' (r2 :: rs)) (Or.inr (Or.inl rfl))
          simp [parseRowAux, hp, ih.2]

/-- A row of `n` fields occupies at least `n - 1` characters. -/
theorem length_le_joinSep_comma : ∀ rends : List (List Char),
    rends.length ≤ (joinSep ',' rends).length + 1
  | [] => by simp [joinSep]
  | [x] => by simp [joinSep]
  | x :: y :: xs => by
    have ih := length_le_joinSep_comma (y :: xs)
    simp only [joinSep, List.length_cons, List.length_append] at ih ⊢
    omega

/-- `parseRow` on a rendered row followed by `'\n'` and more input
returns the field values and the rest. -/
theorem parseRow_join_nl (rends vals : List (List Char))
    (hf : List.Forall₂ fieldOK rends vals) (hne : rends ≠ []) (rest2 : List Char) :
    parseRow (joinSep ',' rends ++ '\n' :: rest2) = some (vals, rest2) := by
  unfold parseRow
  refine (parseRowAux_join rends vals hf hne _ ?_).1 rest2
  have h := length_le_joinSep_comma rends
  simp only [List.length_append, List.length_cons]
  omega

/-- `parseRow` on a rendered final row returns the field values and
empty rest. -/
theorem parseRow_join_end (rends vals : List (List Char))
    (hf : List.Forall₂ fieldOK rends vals) (hne : rends ≠ []) :
    parseRow (joinSep ',' rends) = some (vals, []) := by
  unfold parseRow
  refine (parseRowAux_join rends vals hf hne _ ?_).2
  have h := length_le_joinSep_comma rends
  omega

/-- Reading all rows inverts joining rows with `'\n'`, with enough fuel
for the row count, for nonempty rows that each parse back correctly. -/
theorem parseCSVAux_join : ∀ (rendRows : List (List Char)) (valss : List (List (List Char))),
    List.Forall₂ (fun rend vals => rend ≠ []
      ∧ (∀ rest, parseRow (rend ++ '\n' :: rest) = some (vals, rest))
      ∧ parseRow rend = some (vals, [])) rendRows valss →
    ∀ fuel, rendRows.length + 1 ≤ fuel →
      parseCSVAux fuel (joinSep '\n' rendRows) = some valss
  | [], valss, hf, fuel, hfuel => by
    cases hf
    match fuel, hfuel with
    | Nat.succ f, _ => rfl
  | [r], valss, hf, fuel, hfuel => by
    cases hf with
    | cons h1 h2 =>
      cases h2
      match fuel, hfuel with
      | Nat.succ f, hfuel =>
        show parseCSVAux (Nat.succ f) r = _
        have hf1 : f ≥ 1 := by
          simp only [List.length_cons] at hfuel
          omega
        match f, hf1 with
        | Nat.succ f2, _ =>
          simp only [parseCSVAux, if_neg h1.1, h1.2.2]
          rfl
  | r :: r2 :: rs, valss, hf, fuel, hfuel => by
    cases hf with
    | cons h1 h2 =>
      match fuel, hfuel with
      | Nat.succ f, hfuel =>
        have hfuel2 : (r2 :: rs).length + 1 ≤ f := by
          simp only [List.length_cons] at hfuel ⊢
          omega
        have ih := parseCSVAux_join (r2 :: rs) _ h2 f hfuel2
        show parseCSVAux (Nat.succ f) (r ++ '\n' :: joinSep '\n' (r2 :: rs)) = _
        have hlne : r ++ '\n' :: joinSep '\n' (r2 :: rs) ≠ [] := by
          simp
        simp only [parseCSVAux, if_neg hlne, h1.2.1 (joinSep '\n' (r2 :: rs)), ih]
        rfl

/-- Digit characters are neither separators nor quotes. -/
theorem digit10_ok (d : Nat) :
    digit10 d ≠ ',' ∧ digit10 d ≠ '"' ∧ digit10 d ≠ '\n' := by
  unfold digit10
  split <;> refine ⟨by decide, by decide, by decide⟩

/-- Decimal renderings of naturals contain no separator or quote. -/
theorem natCharsAux_ok : ∀ (fuel n : Nat), ∀ c ∈ natCharsAux fuel n,
    c ≠ ',' ∧ c ≠ '"' ∧ c ≠ '\n'
  | 0, n => by simp [natCharsAux]
  | Nat.succ fuel, n => by
    simp only [natCharsAux]
    split
    · intro c hc
      have hc' : c = digit10 n := by simpa using hc
      subst hc'
      exact digit10_ok n
    · intro c hc
      rcases List.mem_append.mp hc with h | h
      · exact natCharsAux_ok fuel (n / 10) c h
      · have hc' : c = digit10 (n % 10) := by simpa using h
        subst hc'
        exact digit10_ok _

/-- Decimal renderings of integers contain no separator or quote. -/
theorem intChars_ok (i : Int) : ∀ c ∈ intChars i, c ≠ ',' ∧ c ≠ '"' ∧ c ≠ '\n' := by
  cases i with
  | ofNat n => exact natCharsAux_ok (n + 1) n
  | negSucc n =>
    intro c hc
    rcases List.mem_cons.mp hc with h | h
    · subst h
      exact ⟨by decide, by decide, by decide⟩
    · exact natCharsAux_ok _ _ c h

/-- Rendered optional numbers contain no separator or quote. -/
theorem numOptChars_ok (v : Option Int) :
    ∀ c ∈ numOptChars v, c ≠ ',' ∧ c ≠ '"' ∧ c ≠ '\n' := by
  cases v with
  | none => simp [numOptChars]
  | some i => exact intChars_ok i

/-- Separator-free fields each parse back to themselves. -/
theorem forall₂_fieldOK_refl (l : List (List Char))
    (h : ∀ s ∈ l, ∀ c ∈ s, c ≠ ',' ∧ c ≠ '"' ∧ c ≠ '\n') :
    List.Forall₂ fieldOK l l := by
  induction l with
  | nil => exact List.Forall₂.nil
  | cons a t ih =>
    exact List.Forall₂.cons (fieldOK_bare a (h a (by simp)))
      (ih (fun s hs => h s (by simp [hs])))

/-- Every field of an exported row parses back to its value, given a
CSV-safe symbol. -/
theorem rowFieldsOK (c : Crypto) (hs : symbolSafe c) :
    List.Forall₂ fieldOK (csvRowFields c) (csvRowValues c) := by
  unfold csvRowFields csvRowValues
  refine List.Forall₂.cons (fieldOK_bare _ (numOptChars_ok _)) ?_
  refine List.Forall₂.cons (fieldOK_quoted _) ?_
  refine List.Forall₂.cons (fieldOK_bare _ hs) ?_
  refine List.Forall₂.cons (fieldOK_quoted _) ?_
  refine List.Forall₂.cons (fieldOK_bare _ (numOptChars_ok _)) ?_
  refine List.Forall₂.cons (fieldOK_bare _ (numOptChars_ok _)) ?_
  refine List.Forall₂.cons (fieldOK_bare _ (numOptChars_ok _)) ?_
  refine List.Forall₂.cons (fieldOK_bare _ (numOptChars_ok _)) ?_
  refine List.Forall₂.cons (fieldOK_bare _ (numOptChars_ok _)) ?_
  refine List.Forall₂.cons (fieldOK_bare _ (numOptChars_ok _)) ?_
  refine List.Forall₂.cons (fieldOK_bare _ (numOptChars_ok _)) ?_
  exact List.Forall₂.nil

/-- A join of at least two fields is nonempty. -/
theorem joinSep_two_ne_nil (sep : Char) (x y : List Char) (xs : List (List Char)) :
    joinSep sep (x :: y :: xs) ≠ [] := by
  simp [joinSep]

/-- An exported data row is nonempty. -/
theorem csvRow_ne_nil (c : Crypto) : csvRow c ≠ [] := by
  unfold csvRow csvRowFields
  exact joinSep_two_ne_nil _ _ _ _

/-- The exported header row is nonempty. -/
theorem headerRow_ne_nil : joinSep ',' (csvHeaders.map String.data) ≠ [] := by
  decide

/-- Every exported data row parses back to its field values, given
CSV-safe symbols. -/
theorem rowsOK (l : List Crypto) (h : ∀ c ∈ l, symbolSafe c) :
    List.Forall₂ (fun rend vals => rend ≠ []
      ∧ (∀ rest, parseRow (rend ++ '\n' :: rest) = some (vals, rest))
      ∧ parseRow rend = some (vals, []))
      (l.map csvRow) (l.map csvRowValues) := by
  induction l with
  | nil => exact List.Forall₂.nil
  | cons c t ih =>
    refine List.Forall₂.cons ?_ (ih (fun x hx => h x (by simp [hx])))
    have hf := rowFieldsOK c (h c (by simp))
    have hne : csvRowFields c ≠ [] := by simp [csvRowFields]
    exact ⟨csvRow_ne_nil c,
      fun rest => parseRow_join_nl _ _ hf hne rest,
      parseRow_join_end _ _ hf hne⟩

/-- A join of nonempty rows has at least one character per row. -/
theorem length_le_joinSep_nl : ∀ rows : List (List Char), (∀ r ∈ rows, r ≠ []) →
    rows.length ≤ (joinSep '\n' rows).length
  | [], _ => by simp [joinSep]
  | [x], h => by
    have hx : 1 ≤ x.length := List.length_pos.mpr (h x (by simp))
    simpa [joinSep] using hx
  | x :: y :: xs, h => by
    have ih := length_le_joinSep_nl (y :: xs) (fun r hr => h r (by simp at hr ⊢; tauto))
    have hx : 1 ≤ x.length := List.length_pos.mpr (h x (by simp))
    simp only [joinSep, List.length_cons, List.length_append] at ih ⊢
    omega

set_option maxRecDepth 100000 in
/-- C3 counterexample: exporting the record `cBadSym`, whose symbol is
`a,b`, and reparsing does not recover its field values - the unquoted
comma splits the symbol, so the data row parses into 12 fields instead
of the 11 exported values. So the round trip fails for arbitrary records
and needs the symbol-safety restriction. -/
theorem csvRoundTripCounterexample :
    parseCSV (csvContent [cBadSym]) ≠ some (csvHeaderValues :: [csvRowValues cBadSym])
    ∧ (parseCSV (csvContent [cBadSym])).map (fun rows => rows.map List.length)
      = some [11, 12] := by
  constructor
  · decide
  · decide

/-- C3 amended: for every record list whose uppercased symbols contain no
comma, double quote or newline, parsing the exported CSV text with an RFC
4180 reader yields exactly one header row plus one row per input record
(same data-row count), and each data row's parsed field values are the
record's exported field values (name exactly, symbol uppercased, category
after N/A-defaulting and label mapping, numbers in decimal, absent
numbers empty). -/
theorem csvRoundTrip (l : List Crypto) (h : ∀ c ∈ l, symbolSafe c) :
    parseCSV (csvContent l) = some (csvHeaderValues :: l.map csvRowValues) := by
  unfold parseCSV csvContent
  have hheadf : List.Forall₂ fieldOK (csvHeaders.map String.data) (csvHeaders.map String.data) :=
    forall₂_fieldOK_refl _ (by decide)
  have hheadne : csvHeaders.map String.data ≠ [] := by simp [csvHeaders]
  have hall : List.Forall₂ (fun rend vals => rend ≠ []
      ∧ (∀ rest, parseRow (rend ++ '\n' :: rest) = some (vals, rest))
      ∧ parseRow rend = some (vals, []))
      (joinSep ',' (csvHeaders.map String.data) :: l.map csvRow)
      (csvHeaderValues :: l.map csvRowValues) := by
    refine List.Forall₂.cons ⟨headerRow_ne_nil, ?_, ?_⟩ (rowsOK l h)
    · intro rest
      exact parseRow_join_nl _ _ hheadf hheadne rest
    · exact parseRow_join_end _ _ hheadf hheadne
  refine parseCSVAux_join _ _ hall _ ?_
  have hne : ∀ r ∈ joinSep ',' (csvHeaders.map String.data) :: l.map csvRow, r ≠ [] := by
    intro r hr
    rcases List.mem_cons.mp hr with h1 | h1
    · subst h1
      exact headerRow_ne_nil
    · rcases List.mem_map.mp h1 with ⟨c, _, rfl⟩
      exact csvRow_ne_nil c
  have hlen := length_le_joinSep_nl _ hne
  simp only [List.length_cons] at hlen ⊢
  omega

/-- Witness for `csvRoundTrip` at the one-record batch `[cBtc]`. -/
theorem csvRoundTripWitness :
    parseCSV (csvContent [cBtc]) = some (csvHeaderValues :: [cBtc].map csvRowValues) := by
  refine csvRoundTrip [cBtc] ?_
  intro c hc
  have hc' : c = cBtc := by simpa using hc
  subst hc'
  unfold symbolSafe
  decide

end CryptoScreener
